import Mathlib

/-!
# gcsvis: the hierarchical explorer over a flat object namespace

A shallow embedding of `vis.go`, `node.go` and `thinclient.go`.

* Go strings are Lean `String`s.  The only string operations the program uses are
  equality tests and `strings.Split(_, "/")`; the separator is a single ASCII byte, so
  splitting the character sequence agrees with splitting the UTF-8 bytes.
* A Go slice is a `List`; the `nil` slice is `[]`.
* A Go result pair `(value, error)` is a Lean pair whose second component is
  `Option Error` (`none` is the `nil` error).
* The storage service is an explicit `Backend` value threaded through every call.  It
  holds the answers the service will give and a log of the requests issued so far.
* The rows of a listing come from the storage library's object iterator, which builds
  item rows without a `Prefix` and prefix rows with nothing but a `Prefix`; `libraryRow`
  records these two shapes.
-/

set_option autoImplicit false

namespace Gcsvis

/-! ## Data model -/

/-- Go `error` values: the sentinel `iterator.Done`, or any other error. -/
inductive Error where
  | Done
  | other (msg : String)
  deriving DecidableEq

/-- One access-control rule, `storage.ACLRule`. -/
structure ACLRule where
  Entity : String
  Role : String
  deriving DecidableEq

/-- The fields of `storage.ObjectAttrs` the program reads. -/
structure ObjectAttrs where
  Name : String
  Prefix : String
  ACL : List ACLRule
  Owner : String
  Size : Int
  deriving DecidableEq

/-- The bucket lifecycle configuration, `v1.BucketLifecycle`; each rule is kept as text. -/
structure BucketLifecycle where
  Rule : List String
  deriving DecidableEq

/-- The fields of the `v1.Bucket` resource the program reads. -/
structure Bucket where
  Lifecycle : Option BucketLifecycle
  deriving DecidableEq

/-- The result entity of `node.go`. -/
structure Node where
  Bucket : String
  Ntype : String
  Name : String
  FQPN : String
  ACL : List ACLRule
  Lifecycle : Option BucketLifecycle
  Size : Int
  Owner : String
  deriving DecidableEq

/-- The listing scope, `storage.Query`. -/
structure Query where
  Prefix : String
  Delimiter : String
  Versions : Bool
  deriving DecidableEq

/-- A request issued to the storage service. -/
inductive Call where
  | BucketsGet (bucketName : String) (projection : String)
  | Objects (bucketName : String) (q : Query)
  deriving DecidableEq

/-- The storage service as seen by one call: the answer to a bucket metadata request, the
sequence of answers the listing cursor gives to successive `Next` calls (after the last
one the cursor answers `iterator.Done`), and the requests issued so far. -/
structure Backend where
  bucketsGet : String → String → Except Error Bucket
  objects : String → Query → List (Except Error ObjectAttrs)
  log : List Call

/-! ## `strings.Split` with a one-character separator -/

/-- Splitting a character sequence at every occurrence of `sep`. The result always has at
least one segment; a sequence without `sep` is returned whole. -/
def splitChars (sep : Char) : List Char → List (List Char)
  | [] => [[]]
  | c :: cs =>
    if c = sep then [] :: splitChars sep cs
    else
      match splitChars sep cs with
      | [] => [[c]]
      | seg :: segs => (c :: seg) :: segs

/-- Go `strings.Split(s, sep)` for a separator of one character. -/
def Split (s : String) (sep : Char) : List String :=
  (splitChars sep s.data).map String.mk

/-! ## `thinclient.go` -/

/-- Go `(*ThinClient).Lifecycle`: one `Buckets.Get` request with the full projection. -/
def ThinClient.Lifecycle (tc : Backend) (bucketName : String) :
    (Option BucketLifecycle × Option Error) × Backend :=
  let tc1 : Backend := { tc with log := tc.log ++ [Call.BucketsGet bucketName "full"] }
  match tc.bucketsGet bucketName "full" with
  | .error err => ((none, some err), tc1)
  | .ok resp => ((resp.Lifecycle, none), tc1)

/-! ## `vis.go` -/

/-- The `for` loop of `listq`: `it` is what the cursor has yet to answer, `objects` the
slice accumulated so far. -/
def listqLoop (pfx : String) (selfIgnore : Bool) :
    List (Except Error ObjectAttrs) → List ObjectAttrs → List ObjectAttrs × Option Error
  | [], objects => (objects, none)
  | .error err :: _, objects =>
    if err = Error.Done then (objects, none)
    else ([], some err)
  | .ok oattrs :: it, objects =>
    if selfIgnore == true && oattrs.Prefix == pfx && oattrs.Prefix != "" then
      listqLoop pfx selfIgnore it objects
    else
      listqLoop pfx selfIgnore it (objects ++ [oattrs])

/-- Go `listq`. -/
def listq (client : Backend) (bucketName : String) (pfx : String) (delimiter : String)
    (versions : Bool) (selfIgnore : Bool) : (List ObjectAttrs × Option Error) × Backend :=
  let q : Query := { Prefix := pfx, Delimiter := delimiter, Versions := versions }
  let client1 : Backend := { client with log := client.log ++ [Call.Objects bucketName q] }
  (listqLoop pfx selfIgnore (client.objects bucketName q) [], client1)

/-- The body of the `for` loop of `Explore`: the node built from one raw entry.  The index
`pathLength - 1` is always in range, since `Split` never returns an empty slice
(`Split_ne_nil`), so the default of `getD` is never used. -/
def exploreNode (bucket : String) (lifecycle : Option BucketLifecycle)
    (element : ObjectAttrs) : Node :=
  let node : Node :=
    { Bucket := "", Ntype := "", Name := "", FQPN := "", ACL := [], Lifecycle := none,
      Size := 0, Owner := "" }
  let node := { node with Bucket := bucket }
  let node := { node with Lifecycle := lifecycle }
  let node :=
    if element.Name == "" && element.Prefix != "" then
      { node with Ntype := "DIR", Name := element.Prefix, FQPN := element.Prefix }
    else
      let pathSlice := Split element.Name '/'
      let pathLength := pathSlice.length
      { node with Ntype := "OBJ", Name := pathSlice.getD (pathLength - 1) "",
                  FQPN := element.Name }
  let node := { node with ACL := element.ACL }
  let node := { node with Owner := element.Owner }
  { node with Size := element.Size }

/-- The `for` loop of `Explore`, appending one node per raw entry. -/
def exploreLoop (bucket : String) (lifecycle : Option BucketLifecycle) :
    List ObjectAttrs → List Node → List Node
  | [], nodes => nodes
  | element :: objs, nodes =>
    exploreLoop bucket lifecycle objs (nodes ++ [exploreNode bucket lifecycle element])

/-- Go `Explore`. -/
def Explore (backend : Backend) (bucket : String) (pfx : String) :
    (List Node × Option Error) × Backend :=
  match ThinClient.Lifecycle backend bucket with
  | ((_, some err), backend1) => (([], some err), backend1)
  | ((lifecycle, none), backend1) =>
    match listq backend1 bucket pfx "/" false true with
    | ((_, some err), backend2) => (([], some err), backend2)
    | ((objs, none), backend2) => ((exploreLoop bucket lifecycle objs [], none), backend2)

/-! ## Specification-side notions -/

/-- A grouping entry: no key, only a common-prefix string. -/
def isGrouping (e : ObjectAttrs) : Prop :=
  e.Name = "" ∧ e.Prefix ≠ ""

instance (e : ObjectAttrs) : Decidable (isGrouping e) := by
  unfold isGrouping; exact inferInstance

/-- The two shapes of row the storage library's object iterator builds: an item row, made
from an object resource, never has its `Prefix` field set; a prefix row is
`&ObjectAttrs{Prefix: p}`, with every other field left at its zero value. -/
def libraryRow (e : ObjectAttrs) : Prop :=
  e.Prefix = "" ∨ (e.Name = "" ∧ e.ACL = [] ∧ e.Owner = "" ∧ e.Size = 0)

instance (e : ObjectAttrs) : Decidable (libraryRow e) := by
  unfold libraryRow; exact inferInstance

/-- The path that identifies a raw entry inside its bucket: the common prefix of a
grouping entry, the key of any other entry. -/
def entryPath (e : ObjectAttrs) : String :=
  if isGrouping e then e.Prefix else e.Name

/-- Position of the last occurrence of `sep` in a character sequence, if there is one. -/
def lastIndex (sep : Char) : List Char → Option Nat
  | [] => none
  | c :: cs =>
    match lastIndex sep cs with
    | some i => some (i + 1)
    | none => if c = sep then some 0 else none

/-- The substring of `s` after the last occurrence of `sep`; the whole of `s` when `sep`
does not occur in it. -/
def substringAfterLast (sep : Char) (s : String) : String :=
  match lastIndex sep s.data with
  | some i => String.mk (s.data.drop (i + 1))
  | none => s

/-- The last segment of a split, over character sequences. -/
def lastSegment (sep : Char) (cs : List Char) : List Char :=
  (splitChars sep cs).getD ((splitChars sep cs).length - 1) []

/-- The final non-empty segment of `s` split on `sep`, if any segment is non-empty. -/
def finalNonEmptySegment (s : String) (sep : Char) : Option String :=
  ((Split s sep).filter (fun seg => decide (seg ≠ ""))).getLast?

/-- The string `s` ends in the character `sep`. -/
def endsWith (s : String) (sep : Char) : Prop :=
  s.data.getLast? = some sep

/-- The cursor answers `entries` one by one and then reports the end of the listing. -/
def drainsTo (it : List (Except Error ObjectAttrs)) (entries : List ObjectAttrs) : Prop :=
  it = entries.map Except.ok ∨
    ∃ rest, it = entries.map Except.ok ++ Except.error Error.Done :: rest

/-- The cursor answers `entries` one by one and then fails with `err`, which is not the
end-of-iteration signal. -/
def failsAfter (it : List (Except Error ObjectAttrs)) (entries : List ObjectAttrs)
    (err : Error) : Prop :=
  err ≠ Error.Done ∧ ∃ rest, it = entries.map Except.ok ++ Except.error err :: rest

/-- What the self-reference test of `listq` keeps: everything, unless `selfIgnore` is set
and the entry's common prefix is the non-empty query prefix. -/
def kept (pfx : String) (selfIgnore : Bool) (e : ObjectAttrs) : Bool :=
  !(selfIgnore == true && e.Prefix == pfx && e.Prefix != "")

/-! ## Sample data -/

/-- A raw object entry with key `key`. -/
def objectEntry (key : String) (size : Int) (owner : String) : ObjectAttrs :=
  { Name := key, Prefix := "", ACL := [{ Entity := "allUsers", Role := "READER" }],
    Owner := owner, Size := size }

/-- A raw grouping entry with common prefix `p`. -/
def groupingEntry (p : String) : ObjectAttrs :=
  { Name := "", Prefix := p, ACL := [], Owner := "", Size := 0 }

/-- The lifecycle policy of the sample bucket. -/
def sampleLifecycle : BucketLifecycle :=
  { Rule := ["Delete after 30 days"] }

/-- A service holding one bucket `test` with the objects `p/x` and `p/q/x`; a listing
scoped to `p/` echoes the queried prefix back as a grouping row. Listing the bucket
`broken` fails after one row. -/
def sampleBackend : Backend :=
  { bucketsGet := fun bucketName _ =>
      if bucketName = "test" ∨ bucketName = "broken" then
        Except.ok { Lifecycle := some sampleLifecycle }
      else Except.error (Error.other "bucket not found")
    objects := fun bucketName q =>
      if bucketName = "test" then
        if q.Prefix = "" then [Except.ok (groupingEntry "p/")]
        else if q.Prefix = "p/" then
          [Except.ok (groupingEntry "p/"), Except.ok (objectEntry "p/x" 12 "alice"),
           Except.ok (groupingEntry "p/q/")]
        else []
      else if bucketName = "broken" then
        [Except.ok (objectEntry "k" 1 "bob"), Except.error (Error.other "page failed")]
      else []
    log := [] }

/-- A service that answers every metadata request with the sample lifecycle policy and
every listing with the cursor answers `it`. -/
def scriptedBackend (it : List (Except Error ObjectAttrs)) : Backend :=
  { bucketsGet := fun _ _ => Except.ok { Lifecycle := some sampleLifecycle }
    objects := fun _ _ => it
    log := [] }

/-- A raw entry with neither a key nor a common prefix. -/
def blankEntry : ObjectAttrs :=
  { Name := "", Prefix := "", ACL := [], Owner := "", Size := 0 }

/-- A listing scoped to `p/` that holds the object `p/q/` and the grouping row `p/q/`. -/
def clashListing : List ObjectAttrs :=
  [objectEntry "p/q/" 0 "alice", groupingEntry "p/q/"]

/-! ## Facts about `Split` -/

theorem splitChars_ne_nil (sep : Char) (cs : List Char) : splitChars sep cs ≠ [] := by
  cases cs with
  | nil => simp [splitChars]
  | cons c cs =>
    unfold splitChars
    split
    · simp
    · split <;> simp

theorem splitChars_of_not_mem (sep : Char) (cs : List Char) (h : sep ∉ cs) :
    splitChars sep cs = [cs] := by
  induction cs with
  | nil => simp [splitChars]
  | cons c cs ih =>
    have hc : ¬ c = sep := fun e => h (by simp [e])
    have hcs : sep ∉ cs := fun e => h (by simp [e])
    simp [splitChars, hc, ih hcs]

theorem splitChars_length_of_mem (sep : Char) (cs : List Char) (h : sep ∈ cs) :
    2 ≤ (splitChars sep cs).length := by
  induction cs with
  | nil => simp at h
  | cons c cs ih =>
    by_cases hc : c = sep
    · have := List.length_pos.mpr (splitChars_ne_nil sep cs)
      simp [splitChars, hc]
      omega
    · have hcs : sep ∈ cs := by
        rcases List.mem_cons.mp h with e | e
        · exact absurd e.symm hc
        · exact e
      have := ih hcs
      cases hs : splitChars sep cs with
      | nil => simp [hs] at this
      | cons seg segs =>
        simp [splitChars, hc, hs]
        simp [hs] at this
        omega

theorem lastIndex_eq_none (sep : Char) (cs : List Char) :
    lastIndex sep cs = none ↔ sep ∉ cs := by
  induction cs with
  | nil => simp [lastIndex]
  | cons c cs ih =>
    unfold lastIndex
    cases hl : lastIndex sep cs with
    | some i =>
      have : sep ∈ cs := by
        by_contra hn
        rw [ih.mpr hn] at hl
        cases hl
      simp [this]
    | none =>
      have hn := ih.mp hl
      by_cases hc : c = sep
      · simp [hc]
      · have : ¬ sep = c := fun e => hc e.symm
        simp [hc, hn, this]

/-- Reading the last element of a non-empty list by its index skips the head when the tail
is non-empty. -/
theorem getD_last_cons {α : Type} (x : α) (l : List α) (d : α) (h : l ≠ []) :
    (x :: l).getD ((x :: l).length - 1) d = l.getD (l.length - 1) d := by
  cases l with
  | nil => exact absurd rfl h
  | cons y ys => simp [List.getD]

theorem lastSegment_cons_sep (sep : Char) (cs : List Char) :
    lastSegment sep (sep :: cs) = lastSegment sep cs := by
  unfold lastSegment
  have h : splitChars sep (sep :: cs) = [] :: splitChars sep cs := by simp [splitChars]
  rw [h, getD_last_cons _ _ _ (splitChars_ne_nil sep cs)]

theorem lastSegment_cons_of_not_mem (sep c : Char) (cs : List Char) (hc : ¬ c = sep)
    (h : sep ∉ cs) : lastSegment sep (c :: cs) = c :: cs := by
  have hm : sep ∉ c :: cs := by
    intro e
    rcases List.mem_cons.mp e with e | e
    · exact hc e.symm
    · exact h e
  simp [lastSegment, splitChars_of_not_mem sep (c :: cs) hm]

theorem lastSegment_cons_of_mem (sep c : Char) (cs : List Char) (hc : ¬ c = sep)
    (h : sep ∈ cs) : lastSegment sep (c :: cs) = lastSegment sep cs := by
  have hlen := splitChars_length_of_mem sep cs h
  unfold lastSegment
  cases hs : splitChars sep cs with
  | nil => exact absurd hs (splitChars_ne_nil sep cs)
  | cons seg segs =>
    have hsegs : segs ≠ [] := by
      intro e
      simp [hs, e] at hlen
    have h1 : splitChars sep (c :: cs) = (c :: seg) :: segs := by
      simp [splitChars, hc, hs]
    rw [h1, getD_last_cons _ _ _ hsegs, getD_last_cons _ _ _ hsegs]

theorem lastSegment_eq (sep : Char) (cs : List Char) :
    lastSegment sep cs =
      match lastIndex sep cs with
      | some i => cs.drop (i + 1)
      | none => cs := by
  induction cs with
  | nil => simp [lastSegment, splitChars, lastIndex]
  | cons c cs ih =>
    by_cases hm : sep ∈ cs
    · have hsome : ∃ i, lastIndex sep cs = some i := by
        cases hl : lastIndex sep cs with
        | none => exact absurd hm ((lastIndex_eq_none sep cs).mp hl)
        | some i => exact ⟨i, rfl⟩
      obtain ⟨i, hi⟩ := hsome
      have hstep : lastSegment sep (c :: cs) = lastSegment sep cs := by
        by_cases hc : c = sep
        · rw [hc, lastSegment_cons_sep]
        · exact lastSegment_cons_of_mem sep c cs hc hm
      rw [hstep, ih]
      simp [lastIndex, hi]
    · have hnone := (lastIndex_eq_none sep cs).mpr hm
      by_cases hc : c = sep
      · rw [hc, lastSegment_cons_sep, ih]
        simp [lastIndex, hnone]
      · rw [lastSegment_cons_of_not_mem sep c cs hc hm]
        simp [lastIndex, hnone, hc]

theorem lastSegment_eq_nil_iff (sep : Char) (cs : List Char) :
    lastSegment sep cs = [] ↔ cs = [] ∨ cs.getLast? = some sep := by
  induction cs with
  | nil => simp [lastSegment, splitChars]
  | cons c cs ih =>
    by_cases hc : c = sep
    · rw [hc, lastSegment_cons_sep, ih]
      cases cs with
      | nil => simp
      | cons y ys => simp [List.getLast?_cons_cons]
    · by_cases hm : sep ∈ cs
      · rw [lastSegment_cons_of_mem sep c cs hc hm, ih]
        cases cs with
        | nil => simp at hm
        | cons y ys => simp [List.getLast?_cons_cons]
      · rw [lastSegment_cons_of_not_mem sep c cs hc hm]
        simp only [List.cons_ne_nil, false_or, false_iff]
        intro hl
        have : sep ∈ c :: cs := List.mem_of_getLast?_eq_some hl
        rcases List.mem_cons.mp this with e | e
        · exact hc e.symm
        · exact hm e

theorem Split_ne_nil (s : String) (sep : Char) : Split s sep ≠ [] := by
  simp [Split, splitChars_ne_nil]

theorem Split_last (s : String) (sep : Char) :
    (Split s sep).getD ((Split s sep).length - 1) "" = String.mk (lastSegment sep s.data) := by
  have hpos := List.length_pos.mpr (splitChars_ne_nil sep s.data)
  have hlt : (splitChars sep s.data).length - 1 < (splitChars sep s.data).length := by omega
  simp [Split, lastSegment, List.getD, List.getElem?_map, List.getElem?_eq_getElem hlt]

theorem Split_getLast? (s : String) (sep : Char) :
    (Split s sep).getLast? = some (String.mk (lastSegment sep s.data)) := by
  have hpos := List.length_pos.mpr (splitChars_ne_nil sep s.data)
  have hlt : (splitChars sep s.data).length - 1 < (splitChars sep s.data).length := by omega
  rw [List.getLast?_eq_getElem?]
  simp [Split, lastSegment, List.getD, List.getElem?_map, List.getElem?_eq_getElem hlt]

theorem substringAfterLast_eq (sep : Char) (s : String) :
    substringAfterLast sep s = String.mk (lastSegment sep s.data) := by
  unfold substringAfterLast
  rw [lastSegment_eq]
  cases lastIndex sep s.data <;> rfl

theorem getLast?_filter_of_last {α : Type} (p : α → Bool) (x : α) (l : List α)
    (h : l.getLast? = some x) (hp : p x = true) : (l.filter p).getLast? = some x := by
  induction l with
  | nil => simp at h
  | cons a l ih =>
    cases l with
    | nil =>
      simp at h
      simp [h, hp]
    | cons b t =>
      rw [List.getLast?_cons_cons] at h
      have ih1 := ih h
      by_cases hpa : p a = true
      · rw [List.filter_cons_of_pos hpa]
        cases hf : List.filter p (b :: t) with
        | nil => simp [hf] at ih1
        | cons y ys =>
          rw [List.getLast?_cons_cons, ← hf]
          exact ih1
      · rw [List.filter_cons_of_neg hpa]
        exact ih1

/-! ## Facts about the node built from one entry -/

theorem exploreNode_grouping (bucket : String) (lifecycle : Option BucketLifecycle)
    (element : ObjectAttrs) (h : isGrouping element) :
    exploreNode bucket lifecycle element =
      { Bucket := bucket, Ntype := "DIR", Name := element.Prefix, FQPN := element.Prefix,
        ACL := element.ACL, Lifecycle := lifecycle, Size := element.Size,
        Owner := element.Owner } := by
  obtain ⟨h1, h2⟩ := h
  simp [exploreNode, h1, h2]

theorem exploreNode_other (bucket : String) (lifecycle : Option BucketLifecycle)
    (element : ObjectAttrs) (h : ¬ isGrouping element) :
    exploreNode bucket lifecycle element =
      { Bucket := bucket, Ntype := "OBJ",
        Name := String.mk (lastSegment '/' element.Name.data), FQPN := element.Name,
        ACL := element.ACL, Lifecycle := lifecycle, Size := element.Size,
        Owner := element.Owner } := by
  have hc : (element.Name == "" && element.Prefix != "") = false := by
    unfold isGrouping at h
    by_cases h1 : element.Name = ""
    · have h2 : element.Prefix = "" := by
        by_contra hn
        exact h ⟨h1, hn⟩
      simp [h1, h2]
    · simp [h1]
  simp only [exploreNode, hc, Split_last]
  simp

/-! ## Facts about the two loops -/

theorem kept_eq_decide (pfx : String) (selfIgnore : Bool) (e : ObjectAttrs) :
    kept pfx selfIgnore e =
      decide (¬ (selfIgnore = true ∧ e.Prefix = pfx ∧ e.Prefix ≠ "")) := by
  cases selfIgnore
  · simp [kept]
  · by_cases h1 : e.Prefix = pfx
    · by_cases h2 : e.Prefix = ""
      · have h3 : pfx = "" := h1.symm.trans h2
        subst h3
        simp [kept, h2]
      · have h3 : ¬ pfx = "" := fun e1 => h2 (h1.trans e1)
        have h4 : (e.Prefix != "") = true := by simp [h2]
        have h5 : (e.Prefix == pfx) = true := by simp [h1]
        simp [kept, h3, h4, h5, h1]
    · have h5 : (e.Prefix == pfx) = false := by simp [h1]
      simp [kept, h1, h5]

/-- On a row of library shape, the test of `listq` (common-prefix field equal to the query
prefix and non-empty) holds exactly for a grouping entry whose common prefix is the
non-empty query prefix. -/
theorem selfReference_iff (e : ObjectAttrs) (pfx : String) (hrow : libraryRow e) :
    (e.Prefix = pfx ∧ e.Prefix ≠ "") ↔ (isGrouping e ∧ e.Prefix = pfx ∧ pfx ≠ "") := by
  constructor
  · rintro ⟨h1, h2⟩
    have hname : e.Name = "" := by
      rcases hrow with hrow | ⟨hrow, _⟩
      · exact absurd hrow h2
      · exact hrow
    exact ⟨⟨hname, h2⟩, h1, fun e1 => h2 (h1.trans e1)⟩
  · rintro ⟨hg, h1, _⟩
    exact ⟨h1, hg.2⟩

theorem listqLoop_ok_append (pfx : String) (selfIgnore : Bool) (entries : List ObjectAttrs)
    (rest : List (Except Error ObjectAttrs)) (objects : List ObjectAttrs) :
    listqLoop pfx selfIgnore (entries.map Except.ok ++ rest) objects =
      listqLoop pfx selfIgnore rest (objects ++ entries.filter (kept pfx selfIgnore)) := by
  induction entries generalizing objects with
  | nil => simp
  | cons e es ih =>
    by_cases hk : kept pfx selfIgnore e = true
    · have hc : (selfIgnore == true && e.Prefix == pfx && e.Prefix != "") = false :=
        (Bool.not_eq_true' _).mp hk
      simp only [List.map_cons, List.cons_append, listqLoop, hc]
      rw [List.filter_cons_of_pos hk]
      simpa using ih (objects ++ [e])
    · have hc : (selfIgnore == true && e.Prefix == pfx && e.Prefix != "") = true :=
        (Bool.not_eq_false' _).mp ((Bool.not_eq_true _).mp hk)
      simp only [List.map_cons, List.cons_append, listqLoop, hc]
      rw [List.filter_cons_of_neg hk]
      simpa using ih objects

theorem listqLoop_drains (pfx : String) (selfIgnore : Bool)
    (it : List (Except Error ObjectAttrs)) (entries : List ObjectAttrs)
    (h : drainsTo it entries) :
    listqLoop pfx selfIgnore it [] = (entries.filter (kept pfx selfIgnore), none) := by
  rcases h with h | ⟨rest, h⟩
  · have := listqLoop_ok_append pfx selfIgnore entries [] []
    simp only [List.append_nil, List.nil_append] at this
    rw [h, this]
    simp [listqLoop]
  · rw [h, listqLoop_ok_append]
    simp [listqLoop]

theorem listqLoop_fails (pfx : String) (selfIgnore : Bool)
    (it : List (Except Error ObjectAttrs)) (entries : List ObjectAttrs) (err : Error)
    (h : failsAfter it entries err) :
    listqLoop pfx selfIgnore it [] = ([], some err) := by
  obtain ⟨hne, rest, h⟩ := h
  rw [h, listqLoop_ok_append]
  simp [listqLoop, hne]

theorem exploreLoop_eq (bucket : String) (lifecycle : Option BucketLifecycle)
    (objs : List ObjectAttrs) (nodes : List Node) :
    exploreLoop bucket lifecycle objs nodes =
      nodes ++ objs.map (exploreNode bucket lifecycle) := by
  induction objs generalizing nodes with
  | nil => simp [exploreLoop]
  | cons e es ih => simp [exploreLoop, ih]

theorem forall₂_map_of_forall {α β : Type} (R : α → β → Prop) (f : α → β) (l : List α)
    (h : ∀ a, R a (f a)) : List.Forall₂ R l (l.map f) := by
  induction l with
  | nil => exact List.Forall₂.nil
  | cons a l ih => exact List.Forall₂.cons (h a) ih

/-! ## Facts about `Explore` -/

theorem listq_result (client : Backend) (bucketName pfx delimiter : String)
    (versions selfIgnore : Bool) :
    (listq client bucketName pfx delimiter versions selfIgnore).1 =
      listqLoop pfx selfIgnore
        (client.objects bucketName
          { Prefix := pfx, Delimiter := delimiter, Versions := versions }) [] := rfl

theorem Explore_of_fetch_error (backend : Backend) (bucket pfx : String) (err : Error)
    (h : backend.bucketsGet bucket "full" = Except.error err) :
    Explore backend bucket pfx =
      (([], some err),
        { backend with log := backend.log ++ [Call.BucketsGet bucket "full"] }) := by
  simp [Explore, ThinClient.Lifecycle, h]

theorem Explore_of_listing_error (backend : Backend) (bucket pfx : String) (resp : Bucket)
    (objs : List ObjectAttrs) (err : Error)
    (h : backend.bucketsGet bucket "full" = Except.ok resp)
    (hl : (listq backend bucket pfx "/" false true).1 = (objs, some err)) :
    (Explore backend bucket pfx).1 = ([], some err) := by
  rw [listq_result] at hl
  simp [Explore, ThinClient.Lifecycle, h, listq, hl]

theorem Explore_of_success (backend : Backend) (bucket pfx : String) (resp : Bucket)
    (objs : List ObjectAttrs)
    (h : backend.bucketsGet bucket "full" = Except.ok resp)
    (hl : (listq backend bucket pfx "/" false true).1 = (objs, none)) :
    (Explore backend bucket pfx).1 =
      (objs.map (exploreNode bucket resp.Lifecycle), none) := by
  rw [listq_result] at hl
  simp [Explore, ThinClient.Lifecycle, h, listq, hl, exploreLoop_eq]

/-- A call of `Explore` that reports no error fetched a bucket resource, drained the
listing without error, and returns one node per listed entry. -/
theorem Explore_success_inv (backend : Backend) (bucket pfx : String)
    (h : (Explore backend bucket pfx).1.2 = none) :
    ∃ resp, backend.bucketsGet bucket "full" = Except.ok resp ∧
      (listq backend bucket pfx "/" false true).1.2 = none ∧
      (Explore backend bucket pfx).1.1 =
        (listq backend bucket pfx "/" false true).1.1.map
          (exploreNode bucket resp.Lifecycle) := by
  cases hf : backend.bucketsGet bucket "full" with
  | error err =>
    rw [Explore_of_fetch_error backend bucket pfx err hf] at h
    simp at h
  | ok resp =>
    refine ⟨resp, rfl, ?_⟩
    cases hq : (listq backend bucket pfx "/" false true).1 with
    | mk objs oerr =>
      cases oerr with
      | some err =>
        rw [Explore_of_listing_error backend bucket pfx resp objs err hf hq] at h
        simp at h
      | none =>
        rw [Explore_of_success backend bucket pfx resp objs hf hq]
        simp

theorem Lifecycle_error_inv (tc : Backend) (bucketName : String) (err : Error)
    (h : (ThinClient.Lifecycle tc bucketName).1.2 = some err) :
    tc.bucketsGet bucketName "full" = Except.error err := by
  unfold ThinClient.Lifecycle at h
  cases hf : tc.bucketsGet bucketName "full" with
  | error e =>
    rw [hf] at h
    simp at h
    rw [h]
  | ok resp =>
    rw [hf] at h
    simp at h

theorem Lifecycle_ok_inv (tc : Backend) (bucketName : String)
    (lifecycle : Option BucketLifecycle)
    (h : (ThinClient.Lifecycle tc bucketName).1 = (lifecycle, none)) :
    ∃ resp, tc.bucketsGet bucketName "full" = Except.ok resp ∧
      resp.Lifecycle = lifecycle := by
  unfold ThinClient.Lifecycle at h
  cases hf : tc.bucketsGet bucketName "full" with
  | error e =>
    rw [hf] at h
    simp at h
  | ok resp =>
    rw [hf] at h
    simp at h
    exact ⟨resp, rfl, h⟩

theorem exploreNode_FQPN (bucket : String) (lifecycle : Option BucketLifecycle)
    (element : ObjectAttrs) :
    (exploreNode bucket lifecycle element).FQPN = entryPath element := by
  by_cases hg : isGrouping element
  · rw [exploreNode_grouping bucket lifecycle element hg]
    simp [entryPath, hg]
  · rw [exploreNode_other bucket lifecycle element hg]
    simp [entryPath, hg]

theorem exploreNode_fields (bucket : String) (lifecycle : Option BucketLifecycle)
    (element : ObjectAttrs) :
    (exploreNode bucket lifecycle element).Bucket = bucket ∧
    (exploreNode bucket lifecycle element).Lifecycle = lifecycle ∧
    (exploreNode bucket lifecycle element).ACL = element.ACL ∧
    (exploreNode bucket lifecycle element).Size = element.Size ∧
    (exploreNode bucket lifecycle element).Owner = element.Owner := by
  by_cases hg : isGrouping element
  · rw [exploreNode_grouping bucket lifecycle element hg]
    simp
  · rw [exploreNode_other bucket lifecycle element hg]
    simp

/-- A call of `Explore` that reports an error returns no nodes. -/
theorem Explore_nodes_of_error (backend : Backend) (bucket pfx : String) (err : Error)
    (h : (Explore backend bucket pfx).1.2 = some err) :
    (Explore backend bucket pfx).1.1 = [] := by
  cases hf : backend.bucketsGet bucket "full" with
  | error e => rw [Explore_of_fetch_error backend bucket pfx e hf]
  | ok resp =>
    cases hq : (listq backend bucket pfx "/" false true).1 with
    | mk objs oerr =>
      cases oerr with
      | some e => rw [Explore_of_listing_error backend bucket pfx resp objs e hf hq]
      | none =>
        rw [Explore_of_success backend bucket pfx resp objs hf hq] at h
        simp at h

/-- Every node `Explore` returns is built from an entry `listq` returned. -/
theorem Explore_nodes_mem (backend : Backend) (bucket pfx : String) (node : Node)
    (h : node ∈ (Explore backend bucket pfx).1.1) :
    ∃ lifecycle element, element ∈ (listq backend bucket pfx "/" false true).1.1 ∧
      node = exploreNode bucket lifecycle element := by
  cases he : (Explore backend bucket pfx).1.2 with
  | some err =>
    rw [Explore_nodes_of_error backend bucket pfx err he] at h
    simp at h
  | none =>
    obtain ⟨resp, _, _, hn⟩ := Explore_success_inv backend bucket pfx he
    rw [hn] at h
    obtain ⟨element, hmem, heq⟩ := List.mem_map.mp h
    exact ⟨resp.Lifecycle, element, hmem, heq.symm⟩

/-! ## Properties of the specification -/

/-- C1: in a call of `Explore` that succeeds, the node built from each raw entry received
from `listq` has type `DIR` exactly when the entry's key is empty and its common prefix
is not; the name and full path of such a node are the entry's common prefix, unchanged. -/
theorem Explore_dir_iff_grouping (backend : Backend) (bucket pfx : String)
    (h : (Explore backend bucket pfx).1.2 = none) :
    List.Forall₂
      (fun element node =>
        (node.Ntype = "DIR" ↔ element.Name = "" ∧ element.Prefix ≠ "") ∧
        (node.Ntype = "DIR" → node.Name = element.Prefix ∧ node.FQPN = element.Prefix))
      (listq backend bucket pfx "/" false true).1.1 (Explore backend bucket pfx).1.1 := by
  obtain ⟨resp, _, _, hn⟩ := Explore_success_inv backend bucket pfx h
  rw [hn]
  apply forall₂_map_of_forall
  intro element
  by_cases hg : isGrouping element
  · rw [exploreNode_grouping bucket resp.Lifecycle element hg]
    have hg1 := hg
    unfold isGrouping at hg1
    simp [hg1]
  · rw [exploreNode_other bucket resp.Lifecycle element hg]
    unfold isGrouping at hg
    simp
    intro h1
    by_contra h2
    exact hg ⟨h1, h2⟩

/-- C1 at the entry with empty key and common prefix `a/b/`. -/
theorem Explore_dir_iff_grouping_witness :
    (Explore (scriptedBackend [Except.ok (groupingEntry "a/b/")]) "bk" "").1.2 = none ∧
    List.Forall₂
      (fun element node =>
        (node.Ntype = "DIR" ↔ element.Name = "" ∧ element.Prefix ≠ "") ∧
        (node.Ntype = "DIR" → node.Name = element.Prefix ∧ node.FQPN = element.Prefix))
      (listq (scriptedBackend [Except.ok (groupingEntry "a/b/")]) "bk" "" "/" false true).1.1
      (Explore (scriptedBackend [Except.ok (groupingEntry "a/b/")]) "bk" "").1.1 :=
  ⟨by decide,
    Explore_dir_iff_grouping (scriptedBackend [Except.ok (groupingEntry "a/b/")]) "bk" ""
      (by decide)⟩

/-- C2: in a call of `Explore` that succeeds, the node built from a raw entry with a
non-empty key has type `OBJ`, its full path is the key, and its name is the substring of
the key after the last `/` (the whole key when it has no `/`). -/
theorem Explore_object_name (backend : Backend) (bucket pfx : String)
    (h : (Explore backend bucket pfx).1.2 = none) :
    List.Forall₂
      (fun element node =>
        element.Name ≠ "" →
          node.Ntype = "OBJ" ∧ node.FQPN = element.Name ∧
            node.Name = substringAfterLast '/' element.Name)
      (listq backend bucket pfx "/" false true).1.1 (Explore backend bucket pfx).1.1 := by
  obtain ⟨resp, _, _, hn⟩ := Explore_success_inv backend bucket pfx h
  rw [hn]
  apply forall₂_map_of_forall
  intro element hne
  have hg : ¬ isGrouping element := fun hg => hne hg.1
  rw [exploreNode_other bucket resp.Lifecycle element hg, substringAfterLast_eq]
  simp

/-- C2 at the entry with key `a/b/c.txt`. -/
theorem Explore_object_name_witness :
    (Explore (scriptedBackend [Except.ok (objectEntry "a/b/c.txt" 7 "alice")])
      "bk" "").1.2 = none ∧
    List.Forall₂
      (fun element node =>
        element.Name ≠ "" →
          node.Ntype = "OBJ" ∧ node.FQPN = element.Name ∧
            node.Name = substringAfterLast '/' element.Name)
      (listq (scriptedBackend [Except.ok (objectEntry "a/b/c.txt" 7 "alice")])
        "bk" "" "/" false true).1.1
      (Explore (scriptedBackend [Except.ok (objectEntry "a/b/c.txt" 7 "alice")])
        "bk" "").1.1 :=
  ⟨by decide,
    Explore_object_name (scriptedBackend [Except.ok (objectEntry "a/b/c.txt" 7 "alice")])
      "bk" "" (by decide)⟩

/-- C3: when the cursor yields, without error, the rows `entries` (each of one of the two
shapes the storage library builds), `listq` returns them in the same order, without error,
less exactly the grouping entries whose common prefix equals the query prefix, and only
when `selfIgnore` is set and that prefix is non-empty.  Every entry is kept when
`selfIgnore` is unset or the query prefix is empty, and every object entry is kept. -/
theorem listq_self_reference_filter (client : Backend) (bucketName pfx delimiter : String)
    (versions selfIgnore : Bool) (entries : List ObjectAttrs)
    (hrows : ∀ e ∈ entries, libraryRow e)
    (h : drainsTo
      (client.objects bucketName
        { Prefix := pfx, Delimiter := delimiter, Versions := versions }) entries) :
    (listq client bucketName pfx delimiter versions selfIgnore).1 =
      (entries.filter
        (fun e =>
          decide (¬ (selfIgnore = true ∧ isGrouping e ∧ e.Prefix = pfx ∧ pfx ≠ ""))),
        none) ∧
    (selfIgnore = false ∨ pfx = "" →
      (listq client bucketName pfx delimiter versions selfIgnore).1 = (entries, none)) ∧
    (∀ e ∈ entries, e.Name ≠ "" →
      e ∈ (listq client bucketName pfx delimiter versions selfIgnore).1.1) := by
  have hq := listqLoop_drains pfx selfIgnore _ entries h
  rw [listq_result, hq]
  refine ⟨?_, ?_, ?_⟩
  · congr 1
    apply List.filter_congr
    intro e he
    rw [kept_eq_decide]
    apply decide_eq_decide.mpr
    rw [selfReference_iff e pfx (hrows e he)]
  · intro hc
    congr 1
    rw [List.filter_eq_self]
    intro e _
    rw [kept_eq_decide]
    rcases hc with hc | hc
    · simp [hc]
    · by_cases he : e.Prefix = ""
      · simp [he]
      · have : ¬ e.Prefix = pfx := fun e1 => he (e1.trans hc)
        simp [this]
  · intro e he hname
    apply List.mem_filter.mpr
    refine ⟨he, ?_⟩
    rw [kept_eq_decide]
    have hg : ¬ (e.Prefix = pfx ∧ e.Prefix ≠ "") := by
      rw [selfReference_iff e pfx (hrows e he)]
      intro hg
      exact hname hg.1.1
    simp only [decide_eq_true_eq]
    intro hc
    exact hg hc.2

/-- C3 on the listing of the sample bucket scoped to `p/`: the echoed row `p/` is removed,
the object `p/x` and the grouping row `p/q/` are kept, in order. -/
theorem listq_self_reference_filter_witness :
    (∀ e ∈ [groupingEntry "p/", objectEntry "p/x" 12 "alice", groupingEntry "p/q/"],
      libraryRow e) ∧
    (listq sampleBackend "test" "p/" "/" false true).1 =
      ([groupingEntry "p/", objectEntry "p/x" 12 "alice", groupingEntry "p/q/"].filter
        (fun e =>
          decide (¬ (true = true ∧ isGrouping e ∧ e.Prefix = "p/" ∧ "p/" ≠ ""))),
        none) ∧
    (listq sampleBackend "test" "p/" "/" false true).1.1 =
      [objectEntry "p/x" 12 "alice", groupingEntry "p/q/"] :=
  ⟨by decide,
    (listq_self_reference_filter sampleBackend "test" "p/" "/" false true
      [groupingEntry "p/", objectEntry "p/x" 12 "alice", groupingEntry "p/q/"]
      (by decide) (Or.inl rfl)).1,
    by decide⟩

/-- C4, as stated, fails: the listing `clashListing` has two distinct raw entries, an
object with key `p/q/` and a grouping row with common prefix `p/q/`, and `Explore`
returns two nodes with the same full path. -/
theorem Explore_fqpn_clash :
    clashListing.Nodup ∧
    drainsTo
      ((scriptedBackend (clashListing.map Except.ok)).objects "bk"
        { Prefix := "p/", Delimiter := "/", Versions := false })
      clashListing ∧
    (Explore (scriptedBackend (clashListing.map Except.ok)) "bk" "p/").1.2 = none ∧
    (Explore (scriptedBackend (clashListing.map Except.ok)) "bk" "p/").1.1.map Node.FQPN =
      ["p/q/", "p/q/"] ∧
    ¬ ((Explore (scriptedBackend (clashListing.map Except.ok)) "bk" "p/").1.1.map
        Node.FQPN).Nodup :=
  ⟨by decide, Or.inl rfl, by decide, by decide, by decide⟩

/-- C4, amended: when the cursor yields `entries` without error and the paths of these
entries (the common prefix of a grouping entry, the key of any other entry) are pairwise
distinct, no two nodes returned by `Explore` have the same full path. -/
theorem Explore_fqpn_nodup (backend : Backend) (bucket pfx : String)
    (entries : List ObjectAttrs)
    (hd : drainsTo
      (backend.objects bucket { Prefix := pfx, Delimiter := "/", Versions := false })
      entries)
    (hp : (entries.map entryPath).Nodup) :
    ((Explore backend bucket pfx).1.1.map Node.FQPN).Nodup := by
  cases he : (Explore backend bucket pfx).1.2 with
  | some err =>
    rw [Explore_nodes_of_error backend bucket pfx err he]
    exact List.nodup_nil
  | none =>
    obtain ⟨resp, _, _, hn⟩ := Explore_success_inv backend bucket pfx he
    have hq := listqLoop_drains pfx true _ entries hd
    rw [hn, listq_result, hq, List.map_map]
    have hfun : Node.FQPN ∘ exploreNode bucket resp.Lifecycle = entryPath := by
      funext e
      exact exploreNode_FQPN bucket resp.Lifecycle e
    rw [hfun]
    exact hp.sublist ((List.filter_sublist entries).map entryPath)

/-- C4, amended, on the listing of the sample bucket scoped to `p/`. -/
theorem Explore_fqpn_nodup_witness :
    ([groupingEntry "p/", objectEntry "p/x" 12 "alice", groupingEntry "p/q/"].map
      entryPath).Nodup ∧
    ((Explore sampleBackend "test" "p/").1.1.map Node.FQPN).Nodup :=
  ⟨by decide,
    Explore_fqpn_nodup sampleBackend "test" "p/"
      [groupingEntry "p/", objectEntry "p/x" 12 "alice", groupingEntry "p/q/"]
      (Or.inl rfl) (by decide)⟩

/-- C5, as stated, fails: on a listing that delivers an entry with empty key and empty
common prefix, `Explore` reports no error and returns a node of type `OBJ` for it. -/
theorem blank_entry_yields_object_node :
    blankEntry.Name = "" ∧ blankEntry.Prefix = "" ∧
    (Explore (scriptedBackend [Except.ok blankEntry]) "bk" "").1 =
      ([{ Bucket := "bk", Ntype := "OBJ", Name := "", FQPN := "", ACL := [],
          Lifecycle := some sampleLifecycle, Size := 0, Owner := "" }], none) :=
  ⟨by decide, by decide, by decide⟩

/-- C5, amended: when the lifecycle fetch succeeds and the cursor yields `entries` without
error, `Explore` reports no error even if an entry has empty key and empty common prefix;
for such an entry it returns a node of type `OBJ` whose name and full path are empty. -/
theorem Explore_blank_entry (backend : Backend) (bucket pfx : String)
    (lifecycle : Option BucketLifecycle) (entries : List ObjectAttrs)
    (element : ObjectAttrs)
    (hf : (ThinClient.Lifecycle backend bucket).1 = (lifecycle, none))
    (hd : drainsTo
      (backend.objects bucket { Prefix := pfx, Delimiter := "/", Versions := false })
      entries)
    (hmem : element ∈ entries) (hk : element.Name = "") (hp : element.Prefix = "") :
    (Explore backend bucket pfx).1.2 = none ∧
    exploreNode bucket lifecycle element ∈ (Explore backend bucket pfx).1.1 ∧
    (exploreNode bucket lifecycle element).Ntype = "OBJ" ∧
    (exploreNode bucket lifecycle element).Name = "" ∧
    (exploreNode bucket lifecycle element).FQPN = "" := by
  obtain ⟨resp, hresp, hlc⟩ := Lifecycle_ok_inv backend bucket lifecycle hf
  have hq := listqLoop_drains pfx true _ entries hd
  rw [← listq_result backend bucket pfx "/" false true] at hq
  have hs := Explore_of_success backend bucket pfx resp _ hresp hq
  have hg : ¬ isGrouping element := fun hg => hg.2 hp
  have hkeep : kept pfx true element = true := by
    rw [kept_eq_decide]
    simp [hp]
  have hn := exploreNode_other bucket lifecycle element hg
  have hlast : lastSegment '/' element.Name.data = [] := by
    rw [hk]
    rfl
  rw [hs, hlc]
  refine ⟨rfl, ?_, ?_, ?_, ?_⟩
  · exact List.mem_map.mpr ⟨element, List.mem_filter.mpr ⟨hmem, hkeep⟩, rfl⟩
  · rw [hn]
  · rw [hn, hlast]
  · rw [hn]
    exact hk

/-- C5, amended, on a listing whose only entry is blank. -/
theorem Explore_blank_entry_witness :
    (Explore (scriptedBackend [Except.ok blankEntry]) "bk" "").1.2 = none ∧
    exploreNode "bk" (some sampleLifecycle) blankEntry ∈
      (Explore (scriptedBackend [Except.ok blankEntry]) "bk" "").1.1 ∧
    (exploreNode "bk" (some sampleLifecycle) blankEntry).Ntype = "OBJ" ∧
    (exploreNode "bk" (some sampleLifecycle) blankEntry).Name = "" ∧
    (exploreNode "bk" (some sampleLifecycle) blankEntry).FQPN = "" :=
  Explore_blank_entry (scriptedBackend [Except.ok blankEntry]) "bk" ""
    (some sampleLifecycle) [blankEntry] blankEntry rfl (Or.inl rfl)
    (List.mem_singleton.mpr rfl) rfl rfl

/-- C6: in a call of `Explore` that succeeds on a listing whose rows have one of the two
shapes the storage library builds, every node of type `DIR` has an empty ACL, size 0 and
an empty owner; a node of type `OBJ` carries the ACL, size and owner the backend reported
for its entry. -/
theorem Explore_dir_no_metadata (backend : Backend) (bucket pfx : String)
    (entries : List ObjectAttrs)
    (hrows : ∀ e ∈ entries, libraryRow e)
    (hd : drainsTo
      (backend.objects bucket { Prefix := pfx, Delimiter := "/", Versions := false })
      entries)
    (h : (Explore backend bucket pfx).1.2 = none) :
    (∀ node ∈ (Explore backend bucket pfx).1.1,
      node.Ntype = "DIR" → node.ACL = [] ∧ node.Size = 0 ∧ node.Owner = "") ∧
    List.Forall₂
      (fun element node =>
        node.Ntype = "OBJ" →
          node.ACL = element.ACL ∧ node.Size = element.Size ∧ node.Owner = element.Owner)
      (listq backend bucket pfx "/" false true).1.1 (Explore backend bucket pfx).1.1 := by
  obtain ⟨resp, _, _, hn⟩ := Explore_success_inv backend bucket pfx h
  have hq := listqLoop_drains pfx true _ entries hd
  rw [← listq_result backend bucket pfx "/" false true] at hq
  refine ⟨?_, ?_⟩
  · intro node hmem hdir
    rw [hn, hq] at hmem
    obtain ⟨element, hel, hnode⟩ := List.mem_map.mp hmem
    have hrow := hrows element (List.mem_filter.mp hel).1
    by_cases hg : isGrouping element
    · rw [exploreNode_grouping bucket resp.Lifecycle element hg] at hnode
      rcases hrow with hrow | ⟨_, hacl, hown, hsize⟩
      · exact absurd hrow hg.2
      · rw [← hnode]
        exact ⟨hacl, hsize, hown⟩
    · rw [exploreNode_other bucket resp.Lifecycle element hg] at hnode
      rw [← hnode] at hdir
      simp at hdir
  · rw [hn]
    apply forall₂_map_of_forall
    intro element _
    obtain ⟨_, _, h1, h2, h3⟩ := exploreNode_fields bucket resp.Lifecycle element
    exact ⟨h1, h2, h3⟩

/-- C6 on the listing of the sample bucket scoped to `p/`. -/
theorem Explore_dir_no_metadata_witness :
    (∀ e ∈ [groupingEntry "p/", objectEntry "p/x" 12 "alice", groupingEntry "p/q/"],
      libraryRow e) ∧
    (Explore sampleBackend "test" "p/").1.2 = none ∧
    (∀ node ∈ (Explore sampleBackend "test" "p/").1.1,
      node.Ntype = "DIR" → node.ACL = [] ∧ node.Size = 0 ∧ node.Owner = "") ∧
    List.Forall₂
      (fun element node =>
        node.Ntype = "OBJ" →
          node.ACL = element.ACL ∧ node.Size = element.Size ∧ node.Owner = element.Owner)
      (listq sampleBackend "test" "p/" "/" false true).1.1
      (Explore sampleBackend "test" "p/").1.1 :=
  ⟨by decide, by decide,
    Explore_dir_no_metadata sampleBackend "test" "p/"
      [groupingEntry "p/", objectEntry "p/x" 12 "alice", groupingEntry "p/q/"]
      (by decide) (Or.inl rfl) (by decide)⟩

/-- C7, as stated, fails: for the object with key `a/b/` the node has type `OBJ` and an
empty name, while the final non-empty segment of its full path is `b`. -/
theorem Explore_trailing_slash_name :
    (objectEntry "a/b/" 0 "alice").Name ≠ "" ∧
    (Explore (scriptedBackend [Except.ok (objectEntry "a/b/" 0 "alice")])
      "bk" "").1.1.map (fun node => (node.Ntype, node.FQPN, node.Name)) =
        [("OBJ", "a/b/", "")] ∧
    finalNonEmptySegment "a/b/" '/' = some "b" :=
  ⟨by decide, by decide, by decide⟩

/-- C7, amended: for every node `Explore` returns with type `OBJ`, the name is the final
segment of the full path split on `/`, empty or not; it is empty exactly when the full
path is empty or ends in `/`, and when it is not empty it is the final non-empty
segment. -/
theorem Explore_object_last_segment (backend : Backend) (bucket pfx : String) (node : Node)
    (hmem : node ∈ (Explore backend bucket pfx).1.1) (ht : node.Ntype = "OBJ") :
    (Split node.FQPN '/').getLast? = some node.Name ∧
    (node.Name = "" ↔ node.FQPN = "" ∨ endsWith node.FQPN '/') ∧
    (node.Name ≠ "" → finalNonEmptySegment node.FQPN '/' = some node.Name) := by
  obtain ⟨lifecycle, element, _, hnode⟩ := Explore_nodes_mem backend bucket pfx node hmem
  by_cases hg : isGrouping element
  · rw [hnode, exploreNode_grouping bucket lifecycle element hg] at ht
    simp at ht
  · have hn := exploreNode_other bucket lifecycle element hg
    have h1 : node.FQPN = element.Name := by rw [hnode, hn]
    have h2 : node.Name = String.mk (lastSegment '/' element.Name.data) := by rw [hnode, hn]
    have hlast := Split_getLast? element.Name '/'
    rw [h1, h2]
    refine ⟨hlast, ?_, ?_⟩
    · have hnil := lastSegment_eq_nil_iff '/' element.Name.data
      have he1 : (String.mk (lastSegment '/' element.Name.data) = "") ↔
          lastSegment '/' element.Name.data = [] := by
        constructor
        · intro e
          exact congrArg String.data e
        · intro e
          rw [e]
      have he2 : element.Name = "" ↔ element.Name.data = [] := by
        constructor
        · intro e
          rw [e]
        · intro e
          exact String.ext e
      rw [he1, he2]
      exact hnil
    · intro hne
      unfold finalNonEmptySegment
      apply getLast?_filter_of_last _ _ _ hlast
      simpa using hne

/-- C7, amended, at the node of the object `p/x` of the sample bucket. -/
theorem Explore_object_last_segment_witness :
    (Split (exploreNode "test" (some sampleLifecycle) (objectEntry "p/x" 12 "alice")).FQPN
      '/').getLast? =
        some (exploreNode "test" (some sampleLifecycle)
          (objectEntry "p/x" 12 "alice")).Name ∧
    ((exploreNode "test" (some sampleLifecycle) (objectEntry "p/x" 12 "alice")).Name = "" ↔
      (exploreNode "test" (some sampleLifecycle)
        (objectEntry "p/x" 12 "alice")).FQPN = "" ∨
      endsWith (exploreNode "test" (some sampleLifecycle)
        (objectEntry "p/x" 12 "alice")).FQPN '/') ∧
    ((exploreNode "test" (some sampleLifecycle) (objectEntry "p/x" 12 "alice")).Name ≠ "" →
      finalNonEmptySegment
        (exploreNode "test" (some sampleLifecycle) (objectEntry "p/x" 12 "alice")).FQPN
          '/' =
        some (exploreNode "test" (some sampleLifecycle)
          (objectEntry "p/x" 12 "alice")).Name) :=
  Explore_object_last_segment sampleBackend "test" "p/"
    (exploreNode "test" (some sampleLifecycle) (objectEntry "p/x" 12 "alice"))
    (by decide) (by decide)

/-- C8: if the lifecycle fetch fails with `err`, `Explore` returns `err` and no nodes, and
the only request it issues is the bucket metadata request: no listing request is made. -/
theorem Explore_fetch_failure (backend : Backend) (bucket pfx : String) (err : Error)
    (h : (ThinClient.Lifecycle backend bucket).1.2 = some err) :
    (Explore backend bucket pfx).1 = ([], some err) ∧
    (Explore backend bucket pfx).2.log = backend.log ++ [Call.BucketsGet bucket "full"] ∧
    ∀ bucketName q, Call.Objects bucketName q ∈ (Explore backend bucket pfx).2.log →
      Call.Objects bucketName q ∈ backend.log := by
  have hf := Lifecycle_error_inv backend bucket err h
  rw [Explore_of_fetch_error backend bucket pfx err hf]
  refine ⟨rfl, rfl, ?_⟩
  intro bucketName q hmem
  simpa using hmem

/-- C8 on a bucket the sample service does not know. -/
theorem Explore_fetch_failure_witness :
    (ThinClient.Lifecycle sampleBackend "nope").1.2 =
      some (Error.other "bucket not found") ∧
    (Explore sampleBackend "nope" "p/").1 = ([], some (Error.other "bucket not found")) ∧
    (Explore sampleBackend "nope" "p/").2.log =
      sampleBackend.log ++ [Call.BucketsGet "nope" "full"] ∧
    ∀ bucketName q, Call.Objects bucketName q ∈ (Explore sampleBackend "nope" "p/").2.log →
      Call.Objects bucketName q ∈ sampleBackend.log :=
  ⟨by decide,
    Explore_fetch_failure sampleBackend "nope" "p/" (Error.other "bucket not found")
      (by decide)⟩

/-- C9: if the cursor yields `entries` and then fails with an error `err` other than the
end-of-iteration signal, `listq` returns `err` and no entries; and `Explore`, once its
lifecycle fetch has succeeded, returns `err` and no nodes. -/
theorem listq_cursor_failure (backend : Backend) (bucket pfx delimiter : String)
    (versions selfIgnore : Bool) (entries : List ObjectAttrs) (err : Error)
    (h : failsAfter
      (backend.objects bucket
        { Prefix := pfx, Delimiter := delimiter, Versions := versions }) entries err) :
    (listq backend bucket pfx delimiter versions selfIgnore).1 = ([], some err) ∧
    (delimiter = "/" → versions = false →
      (ThinClient.Lifecycle backend bucket).1.2 = none →
        (Explore backend bucket pfx).1 = ([], some err)) := by
  refine ⟨?_, ?_⟩
  · rw [listq_result]
    exact listqLoop_fails pfx selfIgnore _ entries err h
  · intro hd hv hf
    subst hd
    subst hv
    have hf1 : (ThinClient.Lifecycle backend bucket).1 =
        ((ThinClient.Lifecycle backend bucket).1.1, none) := Prod.ext rfl hf
    obtain ⟨resp, hresp, _⟩ := Lifecycle_ok_inv backend bucket _ hf1
    have hq : (listq backend bucket pfx "/" false true).1 = ([], some err) := by
      rw [listq_result]
      exact listqLoop_fails pfx true _ entries err h
    exact Explore_of_listing_error backend bucket pfx resp [] err hresp hq

/-- C9 on the bucket of the sample service whose listing fails after one row. -/
theorem listq_cursor_failure_witness :
    (listq sampleBackend "broken" "" "/" false true).1 =
      ([], some (Error.other "page failed")) ∧
    (Explore sampleBackend "broken" "").1 = ([], some (Error.other "page failed")) :=
  ⟨(listq_cursor_failure sampleBackend "broken" "" "/" false true
      [objectEntry "k" 1 "bob"] (Error.other "page failed")
      ⟨by decide, [], rfl⟩).1,
    (listq_cursor_failure sampleBackend "broken" "" "/" false true
      [objectEntry "k" 1 "bob"] (Error.other "page failed")
      ⟨by decide, [], rfl⟩).2 rfl rfl (by decide)⟩

/-- C10: when the lifecycle fetch returns `lifecycle` and `listq` returns `objs`, both
without error, `Explore` returns without error one node per entry of `objs`, in the same
order: the node at each position is built from the entry at that position, its full path
is that entry's path, its bucket is the `bucket` argument and its lifecycle is
`lifecycle`.  When `objs` is empty the result is the empty sequence and no error. -/
theorem Explore_node_per_entry (backend : Backend) (bucket pfx : String)
    (lifecycle : Option BucketLifecycle) (objs : List ObjectAttrs)
    (hf : (ThinClient.Lifecycle backend bucket).1 = (lifecycle, none))
    (hl : (listq backend bucket pfx "/" false true).1 = (objs, none)) :
    (Explore backend bucket pfx).1.2 = none ∧
    (Explore backend bucket pfx).1.1 = objs.map (exploreNode bucket lifecycle) ∧
    (Explore backend bucket pfx).1.1.length = objs.length ∧
    List.Forall₂
      (fun element node =>
        node.FQPN =
          (if element.Name = "" ∧ element.Prefix ≠ "" then element.Prefix
            else element.Name) ∧
        node.Bucket = bucket ∧ node.Lifecycle = lifecycle)
      objs (Explore backend bucket pfx).1.1 ∧
    (objs = [] → (Explore backend bucket pfx).1 = ([], none)) := by
  obtain ⟨resp, hresp, hlc⟩ := Lifecycle_ok_inv backend bucket lifecycle hf
  have hs := Explore_of_success backend bucket pfx resp objs hresp hl
  rw [hlc] at hs
  rw [hs]
  refine ⟨rfl, rfl, by simp, ?_, ?_⟩
  · apply forall₂_map_of_forall
    intro element
    obtain ⟨h1, h2, _⟩ := exploreNode_fields bucket lifecycle element
    refine ⟨?_, h1, h2⟩
    rw [exploreNode_FQPN]
    rfl
  · intro he
    rw [he]
    rfl

/-- C10 on the listing of the sample bucket scoped to `p/`. -/
theorem Explore_node_per_entry_witness :
    (Explore sampleBackend "test" "p/").1.2 = none ∧
    (Explore sampleBackend "test" "p/").1.1 =
      [objectEntry "p/x" 12 "alice", groupingEntry "p/q/"].map
        (exploreNode "test" (some sampleLifecycle)) ∧
    (Explore sampleBackend "test" "p/").1.1.length =
      [objectEntry "p/x" 12 "alice", groupingEntry "p/q/"].length ∧
    List.Forall₂
      (fun element node =>
        node.FQPN =
          (if element.Name = "" ∧ element.Prefix ≠ "" then element.Prefix
            else element.Name) ∧
        node.Bucket = "test" ∧ node.Lifecycle = some sampleLifecycle)
      [objectEntry "p/x" 12 "alice", groupingEntry "p/q/"]
      (Explore sampleBackend "test" "p/").1.1 ∧
    ([objectEntry "p/x" 12 "alice", groupingEntry "p/q/"] = [] →
      (Explore sampleBackend "test" "p/").1 = ([], none)) :=
  Explore_node_per_entry sampleBackend "test" "p/" (some sampleLifecycle)
    [objectEntry "p/x" 12 "alice", groupingEntry "p/q/"] (by decide) (by decide)

end Gcsvis
